import Mathlib

/-!
Verification of the ChessAI repository's board/move encoding and indexed
dataset pipeline, as a shallow embedding in Lean 4.

The embedding follows the Python sources:
  * `src/utils/board_utils.py` — `encode_board`, `move_to_index`, `index_to_move`;
  * `src/data/chess_dataset.py` — `ChessDataset._create_index`, `__iter__`, `__len__`;
  * `src/inference.py` — `ChessEngine.evaluate_position` (best-move selection).

Conventions of the embedding:
  * Python integers are `Int` (with `Int.fdiv` / `Int.fmod` for Python's
    floor division `//` and modulus `%`); Python floats that only ever
    hold exactly representable values (0.0, ±1.0, k/4, probabilities
    compared for order) are `ℚ`.
  * A PGN archive is the list of its parsed game records.
    `chess.pgn.read_game` consumes exactly one record and leaves the
    stream at the start of the next one, so stream positions ("byte
    offsets") are modelled as record boundaries: offset `k` is the start
    of game `k`, reading at offset `k` yields game `k` (or nothing at or
    past the end of the file), and `pgn.tell()` directly after reading
    game `k` returns `k + 1`.
  * The chess rules engine (python-chess) is an external collaborator:
    board replay is parameterised over an arbitrary move-application
    function `push`, and a concrete spec-modelled `apply_move` is supplied
    for closed evaluations; the legal-move enumeration consumed by
    `evaluate_position` is an arbitrary list.
  * `_create_index` is modelled with every path present and without the
    optional `max_positions` cap (the constructor's default); no claim
    involves missing files or the cap.
-/

namespace ChessAI

/-! ## Pieces, moves and positions (python-chess data accessed by the sources) -/

/-- Piece types of the chess library: `chess.PAWN` .. `chess.KING`. -/
inductive PieceType where
  | pawn
  | knight
  | bishop
  | rook
  | queen
  | king
deriving DecidableEq, Repr

/-- A piece as the library exposes it: a piece type and a color
(`true` = `chess.WHITE`). -/
structure Piece where
  piece_type : PieceType
  color : Bool
deriving DecidableEq, Repr

/-- A move as `chess.Move` stores it: from/to squares are Python integers
(0..63 = a1..h8 for squares produced by the library, but the constructor
performs no validation and accepts any integer), plus an optional
promotion piece type. -/
structure Move where
  from_square : Int
  to_square : Int
  promotion : Option PieceType
deriving DecidableEq, Repr

/-- A board snapshot, holding exactly the fields `encode_board` reads:
piece placement, side to move (`true` = White), and the four independent
castling-rights booleans. -/
structure Position where
  piece_at : Fin 64 → Option Piece
  turn : Bool
  castlingWK : Bool
  castlingWQ : Bool
  castlingBK : Bool
  castlingBQ : Bool

/-! ## Move Indexer (`src/utils/board_utils.py`) -/

/-- Function `move_to_index` from `src/utils/board_utils.py`:
`move.from_square * 64 + move.to_square`. -/
def move_to_index (move : Move) : Int :=
  move.from_square * 64 + move.to_square

/-- Function `index_to_move` from `src/utils/board_utils.py`:
`from_square = index // 64`, `to_square = index % 64` (Python floor
division and modulus, hence `Int.fdiv` / `Int.fmod`), and
`chess.Move(from_square, to_square)`, whose promotion argument defaults to
absent.  The function performs no range check on `index`. -/
def index_to_move (index : Int) : Move :=
  ⟨index.fdiv 64, index.fmod 64, none⟩

/-! ## Position Encoder (`encode_board` in `src/utils/board_utils.py`)

The numpy array `encoded = np.zeros((14, 8, 8))` is a grid of rationals;
the source loops over `chess.SQUARES` (`range(64)`) writing 1.0 into one
cell per occupied square, then overwrites plane 12 (side to move, White
only) and plane 13 (castling rights) wholesale.  The loop becomes a left
fold of single-cell writes over `List.finRange 64`. -/

/-- An in-progress (14, 8, 8) numpy array of the encoder. -/
abbrev Grid := Fin 14 → Fin 8 → Fin 8 → ℚ

/-- Single-cell assignment `encoded[ch, r, c] = v`. -/
def Grid.setCell (g : Grid) (ch : Fin 14) (r c : Fin 8) (v : ℚ) : Grid :=
  fun ch' r' c' => if ch' = ch ∧ r' = r ∧ c' = c then v else g ch' r' c'

/-- Whole-plane assignment `encoded[ch, :, :] = v`. -/
def set_plane (g : Grid) (ch : Fin 14) (v : ℚ) : Grid :=
  fun ch' r c => if ch' = ch then v else g ch' r c

/-- The `piece_to_channel` dictionary of the source:
pawn 0, knight 1, bishop 2, rook 3, queen 4, king 5. -/
def piece_to_channel : PieceType → Nat
  | .pawn => 0
  | .knight => 1
  | .bishop => 2
  | .rook => 3
  | .queen => 4
  | .king => 5

/-- The channel a piece is written to: `base_channel` for White,
`base_channel + 6` for Black. -/
def channel_nat (p : Piece) : Nat :=
  piece_to_channel p.piece_type + (if p.color then 0 else 6)

/-- The piece channels all lie below the two scalar planes. -/
def channel_nat_lt (p : Piece) : channel_nat p < 12 := by
  rcases p with ⟨t, c⟩
  cases t <;> cases c <;> decide

/-- Row of a square in the grid: `row = 7 - (square // 8)`. -/
def rowOf (sq : Fin 64) : Fin 8 :=
  ⟨7 - sq.val / 8, by have := sq.isLt; omega⟩

/-- Column of a square in the grid: `col = square % 8`. -/
def colOf (sq : Fin 64) : Fin 8 :=
  ⟨sq.val % 8, by have := sq.isLt; omega⟩

/-- The body of the `for square in chess.SQUARES` loop: write 1.0 into the
cell of the square's piece, if any. -/
def fill_step (b : Position) (g : Grid) (sq : Fin 64) : Grid :=
  match b.piece_at sq with
  | none => g
  | some p =>
      g.setCell ⟨channel_nat p, by have := channel_nat_lt p; omega⟩
        (rowOf sq) (colOf sq) 1

/-- The piece-plane loop over all 64 squares, started from the zero array. -/
def fill_pieces (b : Position) : Grid :=
  (List.finRange 64).foldl (fill_step b) (fun _ _ _ => 0)

/-- The `sum([...])` of the four castling-rights booleans in the source. -/
def castling_count (b : Position) : Nat :=
  (if b.castlingWK then 1 else 0) + (if b.castlingWQ then 1 else 0)
    + (if b.castlingBK then 1 else 0) + (if b.castlingBQ then 1 else 0)

/-- Function `encode_board` from `src/utils/board_utils.py`: fill the piece planes,
set plane 12 to 1.0 when White is to move (left at zero otherwise), and
set plane 13 to `castling_rights / 4.0`. -/
def encode_board (b : Position) : Grid :=
  let g := fill_pieces b
  let g := if b.turn then set_plane g ⟨12, by omega⟩ 1 else g
  set_plane g ⟨13, by omega⟩ ((castling_count b : ℚ) / 4)

/-- The square shown at grid cell (row `r`, column `c`): the unique square
with `rowOf` = r and `colOf` = c. -/
def square_at (r c : Fin 8) : Fin 64 :=
  ⟨(7 - r.val) * 8 + c.val, by have := r.isLt; have := c.isLt; omega⟩

/-- The square with file `f` and rank `r` in the a1=0..h8=63 ordering. -/
def square_fr (f r : Fin 8) : Fin 64 :=
  ⟨r.val * 8 + f.val, by have := r.isLt; have := f.isLt; omega⟩

/-- The loop step for square `sq` writes to the cell (ch, r, c). -/
def touches (b : Position) (ch : Fin 14) (r c : Fin 8) (sq : Fin 64) : Prop :=
  rowOf sq = r ∧ colOf sq = c
    ∧ ∃ p, b.piece_at sq = some p ∧ channel_nat p = ch.val

/-! ## External chess-rules collaborator (python-chess, not in this repository) -/

/-- Modelled from the spec: the back rank of the external rules engine's
standard starting arrangement (`game.board()` / `chess.Board()` is the
standard initial position). -/
def start_back_rank : Nat → PieceType
  | 0 => .rook
  | 1 => .knight
  | 2 => .bishop
  | 3 => .queen
  | 4 => .king
  | 5 => .bishop
  | 6 => .knight
  | 7 => .rook
  | _ => .rook

/-- Modelled from the spec: piece placement of the standard starting
position produced by the external rules engine. -/
def start_piece_at (sq : Fin 64) : Option Piece :=
  if sq.val / 8 = 1 then some ⟨.pawn, true⟩
  else if sq.val / 8 = 6 then some ⟨.pawn, false⟩
  else if sq.val / 8 = 0 then some ⟨start_back_rank (sq.val % 8), true⟩
  else if sq.val / 8 = 7 then some ⟨start_back_rank (sq.val % 8), false⟩
  else none

/-- Modelled from the spec: the standard starting position (external
collaborator `game.board()`), White to move, all four castling rights. -/
def start_position : Position :=
  ⟨start_piece_at, true, true, true, true, true⟩

/-- Modelled from the spec: the external rules engine's move application
(`board.push`, §6 of the spec: the collaborator "can apply a move to
produce the next position"), which is not part of this repository.  Moves
the piece from the from-square to the to-square and flips the side to
move; it only instantiates the `push` parameter in closed evaluations,
none of which depend on its details. -/
def apply_move (b : Position) (m : Move) : Position :=
  if hf : 0 ≤ m.from_square ∧ m.from_square < 64
      ∧ 0 ≤ m.to_square ∧ m.to_square < 64 then
    let fs : Fin 64 := ⟨m.from_square.toNat, by obtain ⟨h1, h2, h3, h4⟩ := hf; omega⟩
    let ts : Fin 64 := ⟨m.to_square.toNat, by obtain ⟨h1, h2, h3, h4⟩ := hf; omega⟩
    ⟨fun sq => if sq = ts then b.piece_at fs
       else if sq = fs then none else b.piece_at sq,
      !b.turn, b.castlingWK, b.castlingWQ, b.castlingBK, b.castlingBQ⟩
  else b

/-! ## Game Corpus Indexer and Streaming Dataset (`src/data/chess_dataset.py`) -/

/-- A parsed PGN game record as the dataset uses it: the optional
`Result` header and the main-line move list. -/
structure Game where
  result : Option String
  mainline : List Move
deriving DecidableEq

/-- The outcome label of `_create_index`:
`game.headers.get("Result", "*")` mapped by
`1.0 if result == "1-0" else (-1.0 if result == "0-1" else 0.0)`. -/
def result_value (g : Game) : ℚ :=
  let result := g.result.getD "*"
  if result = "1-0" then 1 else if result = "0-1" then -1 else 0

/-- An archive is the sequence of game records of one PGN file. -/
abbrev Archive := List Game

/-- Reading with `chess.pgn.read_game` at stream position `pos`: the game starting at
record boundary `pos`, or `None` at or past the end of the file. -/
def read_game (ar : Archive) (pos : Nat) : Option Game := ar[pos]?

/-- An element of the `indices` list that `_create_index` builds:
`(pgn_path, game_start, move_count, value)`, the path being the file's
index in `pgn_files`. -/
structure Entry where
  path : Nat
  game_start : Nat
  move_count : Nat
  value : ℚ
deriving DecidableEq

/-- The indexing loop of `_create_index` for one file: run `game_count`
times from stream position `pos`; each iteration reads one game, stops
(`break`) when the read returns `None`, and otherwise appends
`(pgn.tell(), move_count, value)` — `pgn.tell()` being taken AFTER the
record was read, i.e. `pos + 1` in the boundary model. -/
def scan_archive (ar : Archive) : Nat → Nat → List (Nat × Nat × ℚ)
  | 0, _ => []
  | fuel + 1, pos =>
      match read_game ar pos with
      | none => []
      | some game =>
          (pos + 1, game.mainline.length, result_value game)
            :: scan_archive ar fuel (pos + 1)

/-- Indexing one archive: `game_count` iterations (the count of `[Event `
lines — one per record) starting at the beginning of the file. -/
def index_archive (ar : Archive) : List (Nat × Nat × ℚ) :=
  scan_archive ar ar.length 0

/-- The `_create_index` scan over the whole `pgn_files` list. -/
def create_index (files : List Archive) : List Entry :=
  (List.range files.length).flatMap fun i =>
    (index_archive (files.getD i [])).map fun t => ⟨i, t.1, t.2.1, t.2.2⟩

/-- Method `__len__`: `self.total_positions`, the running total of `move_count`
accumulated while indexing. -/
def total_positions (files : List Archive) : Nat :=
  ((create_index files).map Entry.move_count).sum

/-- One yielded training sample: `(encoded_board, move_index, value)`. -/
abbrev Sample := Grid × Int × ℚ

/-- The replay loop of `__iter__`: for each main-line move, yield the
sample for the position before the move, then push the move on the board
(`push` is the external rules engine's move application). -/
def replay (push : Position → Move → Position) :
    Position → List Move → ℚ → List Sample
  | _, [], _ => []
  | b, m :: ms, v =>
      (encode_board b, move_to_index m, v) :: replay push (push b m) ms v

/-- Processing one index entry in `__iter__`: open the entry's file, seek
to `game_start`, read one game; on `None` skip the entry (`continue`),
else replay its main line from the game's initial board. -/
def iter_entry (push : Position → Move → Position) (files : List Archive)
    (e : Entry) : List Sample :=
  match read_game (files.getD e.path []) e.game_start with
  | none => []
  | some game => replay push start_position game.mainline e.value

/-- One full single-worker traversal of the dataset
(`worker_info is None` in `__iter__`). -/
def dataset_iter (push : Position → Move → Position) (files : List Archive) :
    List Sample :=
  (create_index files).flatMap (iter_entry push files)

/-- Value `per_worker = int(np.ceil(len(indices) / num_workers))`, as exact
ceiling division (the float computation agrees for every index size below
2^53). -/
def per_worker (M num_workers : Nat) : Nat :=
  (M + num_workers - 1) / num_workers

/-- The slice `indices[start:end]` taken by worker `id` in `__iter__`:
`start = id * per_worker`, `end = min(start + per_worker, len(indices))`. -/
def worker_slice (indices : List Entry) (num_workers id : Nat) : List Entry :=
  (indices.drop (id * per_worker indices.length num_workers)).take
    (per_worker indices.length num_workers)

/-- The traversal performed by one of `num_workers` parallel workers. -/
def worker_iter (push : Position → Move → Position) (files : List Archive)
    (num_workers id : Nat) : List Sample :=
  (worker_slice (create_index files) num_workers id).flatMap
    (iter_entry push files)

/-! ## Inference Engine (`ChessEngine.evaluate_position` in `src/inference.py`) -/

/-- The best-move selection of `evaluate_position`: the network's raw
policy output is a probability table indexed by
`move.from_square * 64 + move.to_square`; `move_probs` pairs each legal
move (a list supplied by the external rules engine) with its raw
probability, is sorted by probability descending and stable (Python's
`list.sort(key=..., reverse=True)`), and
`best_move = move_probs[0][0] if move_probs else None`. -/
def evaluate_position (policy_probs : Int → ℚ) (legal_moves : List Move) :
    Option Move × List (Move × ℚ) :=
  let move_probs := legal_moves.map fun move =>
    (move, policy_probs (move.from_square * 64 + move.to_square))
  let sorted := move_probs.mergeSort fun a b => decide (b.2 ≤ a.2)
  (match sorted with
   | [] => none
   | x :: _ => some x.1, sorted)

/-! ## Concrete inputs for closed evaluations -/

/-- The game "1. e4 e5 2. Nf3 *" with Result "1-0": three main-line
moves e2e4 (12→28), e7e5 (52→36), g1f3 (6→21). -/
def game_e4 : Game :=
  ⟨some "1-0", [⟨12, 28, none⟩, ⟨52, 36, none⟩, ⟨6, 21, none⟩]⟩

/-- A single archive holding only `game_e4` (the end-to-end scenario). -/
def one_game_files : List Archive := [[game_e4]]

/-- A one-move game with result "1-0". -/
def game_one_move : Game := ⟨some "1-0", [⟨12, 28, none⟩]⟩

/-- A two-move game with result "0-1". -/
def game_two_moves : Game := ⟨some "0-1", [⟨52, 36, none⟩, ⟨57, 42, none⟩]⟩

/-- One archive holding the one-move game followed by the two-move game:
an input separating each entry's stored metadata from the game its
recorded offset actually reaches. -/
def two_game_files : List Archive := [[game_one_move, game_two_moves]]

/-- Entries of length 5, for partition witnesses. -/
def five_entries : List Entry :=
  [⟨0, 1, 1, 0⟩, ⟨0, 2, 2, 0⟩, ⟨0, 3, 3, 0⟩, ⟨0, 4, 4, 0⟩, ⟨0, 5, 5, 0⟩]

/-- A concrete raw policy table: probability 2 at move index 405 (g1f3),
1 everywhere else. -/
def demo_policy : Int → ℚ := fun i => if i = 405 then 2 else 1

/-- A concrete one-element legal-move list (as produced by the external
rules engine): just e2e4. -/
def demo_legal : List Move := [⟨12, 28, none⟩]

/-! ## Theorems -/

/-- C5: for square pairs in [0,63]×[0,63], `move_to_index` yields
`from * 64 + to`, which lies in [0,4095]; `index_to_move` recovers the
from/to squares; and for every integer i in [0,4095],
`move_to_index (index_to_move i) = i`. -/
theorem C5_move_index_round_trip (m : Move)
    (hf0 : 0 ≤ m.from_square) (hf : m.from_square < 64)
    (ht0 : 0 ≤ m.to_square) (ht : m.to_square < 64) :
    (move_to_index m = m.from_square * 64 + m.to_square
      ∧ 0 ≤ move_to_index m ∧ move_to_index m ≤ 4095)
    ∧ (index_to_move (move_to_index m)).from_square = m.from_square
    ∧ (index_to_move (move_to_index m)).to_square = m.to_square
    ∧ ∀ i : Int, 0 ≤ i → i ≤ 4095 → move_to_index (index_to_move i) = i := by
  refine ⟨⟨rfl, ?_, ?_⟩, ?_, ?_, ?_⟩
  · unfold move_to_index; nlinarith
  · unfold move_to_index; nlinarith
  · show (move_to_index m).fdiv 64 = m.from_square
    rw [Int.fdiv_eq_ediv _ (by norm_num)]
    unfold move_to_index
    rw [add_comm, Int.add_mul_ediv_right _ _ (by norm_num : (64:ℤ) ≠ 0),
      Int.ediv_eq_zero_of_lt ht0 ht, zero_add]
  · show (move_to_index m).fmod 64 = m.to_square
    rw [Int.fmod_eq_emod _ (by norm_num)]
    unfold move_to_index
    rw [add_comm, Int.add_mul_emod_self, Int.emod_eq_of_lt ht0 ht]
  · intro i hi0 hi
    show (i.fdiv 64) * 64 + i.fmod 64 = i
    rw [Int.fdiv_eq_ediv _ (by norm_num), Int.fmod_eq_emod _ (by norm_num),
      mul_comm, Int.ediv_add_emod]

/-- Witness for C5 at the concrete move e2e4 (squares 12 and 28). -/
theorem C5_witness :
    ((0:ℤ) ≤ 12 ∧ (12:ℤ) < 64 ∧ (0:ℤ) ≤ 28 ∧ (28:ℤ) < 64)
    ∧ (index_to_move (move_to_index ⟨12, 28, none⟩)).from_square = 12
    ∧ move_to_index (index_to_move 796) = 796 :=
  ⟨by decide,
   (C5_move_index_round_trip ⟨12, 28, none⟩ (by decide) (by decide) (by decide)
      (by decide)).2.1,
   (C5_move_index_round_trip ⟨12, 28, none⟩ (by decide) (by decide) (by decide)
      (by decide)).2.2.2 796 (by decide) (by decide)⟩

/-- C6: `move_to_index` reads only the from- and to-squares, so two moves
that differ only in promotion piece get equal indices; and `index_to_move`
always reports the promotion piece as absent. -/
theorem C6_promotion_collapse :
    (∀ m₁ m₂ : Move, m₁.from_square = m₂.from_square →
      m₁.to_square = m₂.to_square → move_to_index m₁ = move_to_index m₂)
    ∧ ∀ i : Int, (index_to_move i).promotion = none := by
  constructor
  · intro m₁ m₂ hf ht
    unfold move_to_index
    rw [hf, ht]
  · intro i
    rfl

/-- Witness for C6: a queen promotion and a knight promotion a7a8
(squares 48 and 56) yield equal indices, and `index_to_move 0` carries no
promotion. -/
theorem C6_witness :
    move_to_index ⟨48, 56, some .queen⟩ = move_to_index ⟨48, 56, some .knight⟩
    ∧ (index_to_move 0).promotion = none :=
  ⟨C6_promotion_collapse.1 ⟨48, 56, some .queen⟩ ⟨48, 56, some .knight⟩ rfl rfl,
   C6_promotion_collapse.2 0⟩

/-- C8 counterexample: `index_to_move` raises nothing on out-of-range
indices — it is a total function returning a move-shaped value.  At index
4096 it returns the move-shaped value with `from_square = 64` (not a
board square); at index -1 it returns `from_square = -1`,
`to_square = 63` (Python floor semantics).  The claim said such calls
signal an invalid-argument condition instead of returning a move-shaped
value. -/
theorem C8_counterexample :
    index_to_move 4096 = ⟨64, 0, none⟩
    ∧ index_to_move (-1) = ⟨-1, 63, none⟩ := by
  decide

/-- C8 amended: `index_to_move` performs no range validation; for every
integer outside [0,4095] it still returns the move-shaped value
`(i // 64, i % 64, no promotion)`, whose from-square is itself outside
the board range [0,63]. -/
theorem C8_no_range_check (i : Int) (h : i < 0 ∨ 4095 < i) :
    index_to_move i = ⟨i.fdiv 64, i.fmod 64, none⟩
    ∧ ((index_to_move i).from_square < 0 ∨ 63 < (index_to_move i).from_square) := by
  refine ⟨rfl, ?_⟩
  show i.fdiv 64 < 0 ∨ 63 < i.fdiv 64
  rw [Int.fdiv_eq_ediv _ (by norm_num)]
  have h1 := Int.ediv_add_emod i 64
  have h2 := Int.emod_nonneg i (by norm_num : (64:ℤ) ≠ 0)
  have h3 := Int.emod_lt_of_pos i (by norm_num : (0:ℤ) < 64)
  omega

/-- Witness for C8's amended theorem at index 4096. -/
theorem C8_no_range_check_witness :
    ((4096:ℤ) < 0 ∨ (4095:ℤ) < 4096)
    ∧ (index_to_move 4096 = ⟨Int.fdiv 4096 64, Int.fmod 4096 64, none⟩
        ∧ ((index_to_move 4096).from_square < 0
            ∨ 63 < (index_to_move 4096).from_square)) :=
  ⟨by decide, C8_no_range_check 4096 (by decide)⟩

theorem rowcol_iff (sq : Fin 64) (r c : Fin 8) :
    (rowOf sq = r ∧ colOf sq = c) ↔ sq = square_at r c := by
  have h1 := sq.isLt
  have h2 := r.isLt
  have h3 := c.isLt
  simp only [rowOf, colOf, square_at, Fin.ext_iff]
  omega

theorem square_fr_eq (f r : Fin 8) :
    square_fr f r = square_at ⟨7 - r.val, by have := r.isLt; omega⟩ f := by
  have := r.isLt
  simp only [square_fr, square_at, Fin.ext_iff]
  omega

theorem fill_step_untouched {b : Position} {ch : Fin 14} {r c : Fin 8}
    {sq : Fin 64} (h : ¬ touches b ch r c sq) (g : Grid) :
    fill_step b g sq ch r c = g ch r c := by
  cases hp : b.piece_at sq with
  | none => simp [fill_step, hp]
  | some p =>
      simp only [fill_step, hp, Grid.setCell]
      rw [if_neg]
      rintro ⟨hch, hr, hc⟩
      exact h ⟨hr.symm, hc.symm, p, hp, (Fin.ext_iff.mp hch).symm⟩

theorem fill_step_touched {b : Position} {ch : Fin 14} {r c : Fin 8}
    {sq : Fin 64} (h : touches b ch r c sq) (g : Grid) :
    fill_step b g sq ch r c = 1 := by
  obtain ⟨hr, hc, p, hp, hch⟩ := h
  simp only [fill_step, hp, Grid.setCell]
  rw [if_pos ⟨Fin.ext hch.symm, hr.symm, hc.symm⟩]

theorem foldl_fill_untouched {b : Position} {ch : Fin 14} {r c : Fin 8} :
    ∀ (l : List (Fin 64)) (g : Grid), (∀ sq ∈ l, ¬ touches b ch r c sq) →
      (l.foldl (fill_step b) g) ch r c = g ch r c := by
  intro l
  induction l with
  | nil => intro g _; rfl
  | cons a l ih =>
      intro g h
      rw [List.foldl_cons,
        ih _ (fun sq hsq => h sq (List.mem_cons_of_mem a hsq)),
        fill_step_untouched (h a (List.mem_cons_self a l))]

theorem foldl_fill_touched {b : Position} {ch : Fin 14} {r c : Fin 8} :
    ∀ (l : List (Fin 64)) (g : Grid), (∃ sq ∈ l, touches b ch r c sq) →
      (l.foldl (fill_step b) g) ch r c = 1 := by
  intro l
  induction l with
  | nil => rintro g ⟨sq, hsq, -⟩; exact absurd hsq (List.not_mem_nil sq)
  | cons a l ih =>
      rintro g ⟨sq, hsq, hto⟩
      rw [List.foldl_cons]
      rcases List.mem_cons.mp hsq with rfl | hmem
      · by_cases hl : ∃ x ∈ l, touches b ch r c x
        · exact ih _ hl
        · push_neg at hl
          rw [foldl_fill_untouched l _ hl, fill_step_touched hto]
      · exact ih _ ⟨sq, hmem, hto⟩

theorem fill_pieces_eq_one {b : Position} {ch : Fin 14} {r c : Fin 8}
    {p : Piece} (hp : b.piece_at (square_at r c) = some p)
    (hch : channel_nat p = ch.val) : fill_pieces b ch r c = 1 :=
  foldl_fill_touched _ _ ⟨square_at r c, List.mem_finRange _,
    ((rowcol_iff _ r c).mpr rfl).1, ((rowcol_iff _ r c).mpr rfl).2, p, hp, hch⟩

theorem fill_pieces_eq_zero {b : Position} {ch : Fin 14} {r c : Fin 8}
    (h : ∀ p, b.piece_at (square_at r c) = some p → channel_nat p ≠ ch.val) :
    fill_pieces b ch r c = 0 := by
  refine foldl_fill_untouched _ _ ?_
  rintro sq _ ⟨hr, hc, p, hp, hch⟩
  have hsq : sq = square_at r c := (rowcol_iff sq r c).mp ⟨hr, hc⟩
  exact h p (hsq ▸ hp) hch

theorem fill_pieces_high {b : Position} {ch : Fin 14} {r c : Fin 8}
    (h : 12 ≤ ch.val) : fill_pieces b ch r c = 0 := by
  refine foldl_fill_untouched _ _ ?_
  rintro sq _ ⟨-, -, p, -, hch⟩
  exact absurd (hch ▸ channel_nat_lt p) (by omega)

/-- Pointwise evaluation of `encode_board`: the two plane assignments at
the end of the source override the piece planes at channels 13 and 12
(the latter only when White is to move), and every other cell keeps the
value the piece loop left there. -/
theorem encode_board_eval (b : Position) (ch : Fin 14) (r c : Fin 8) :
    encode_board b ch r c =
      if ch.val = 13 then (castling_count b : ℚ) / 4
      else if ch.val = 12 then (if b.turn then (1:ℚ) else fill_pieces b ch r c)
      else fill_pieces b ch r c := by
  show set_plane _ _ _ ch r c = _
  unfold set_plane
  by_cases h13 : ch = (⟨13, by omega⟩ : Fin 14)
  · rw [if_pos h13, if_pos (show ch.val = 13 by rw [h13])]
  · rw [if_neg h13, if_neg (show ¬ ch.val = 13 from fun hv => h13 (Fin.ext hv))]
    by_cases h12 : ch = (⟨12, by omega⟩ : Fin 14)
    · rw [if_pos (show ch.val = 12 by rw [h12])]
      cases hb : b.turn
      · rw [if_neg (show ¬(false = true) by simp),
          if_neg (show ¬(false = true) by simp)]
      · rw [if_pos (show (true = true) from rfl),
          if_pos (show (true = true) from rfl)]
        show (if ch = (⟨12, by omega⟩ : Fin 14) then (1:ℚ)
          else fill_pieces b ch r c) = 1
        rw [if_pos h12]
    · rw [if_neg (show ¬ ch.val = 12 from fun hv => h12 (Fin.ext hv))]
      cases hb : b.turn
      · rw [if_neg (show ¬(false = true) by simp)]
      · rw [if_pos (show (true = true) from rfl)]
        show (if ch = (⟨12, by omega⟩ : Fin 14) then (1:ℚ)
          else fill_pieces b ch r c) = fill_pieces b ch r c
        rw [if_neg h12]

/-- C4: the encoder is the deterministic function placing each piece's 1.0
at (row = 7 − rank, col = file) of its piece-type/color channel, leaving
every other piece-plane cell 0.0, with plane 12 uniformly 1.0 exactly when
White is to move and plane 13 uniformly the castling-rights count over 4. -/
theorem C4_encode_board_correct (b : Position) :
    (∀ (f r : Fin 8) (p : Piece), b.piece_at (square_fr f r) = some p →
        encode_board b ⟨channel_nat p, by have := channel_nat_lt p; omega⟩
          ⟨7 - r.val, by have := r.isLt; omega⟩ f = 1)
    ∧ (∀ (ch : Fin 14) (r c : Fin 8), ch.val < 12 →
        (∀ p, b.piece_at (square_at r c) = some p → channel_nat p ≠ ch.val) →
        encode_board b ch r c = 0)
    ∧ (∀ r c : Fin 8,
        encode_board b ⟨12, by omega⟩ r c = if b.turn then 1 else 0)
    ∧ (∀ r c : Fin 8,
        encode_board b ⟨13, by omega⟩ r c = (castling_count b : ℚ) / 4) := by
  refine ⟨?_, ?_, ?_, ?_⟩
  · intro f r p hp
    have hlt := channel_nat_lt p
    rw [square_fr_eq] at hp
    rw [encode_board_eval, if_neg (by simpa using by omega),
      if_neg (by simpa using by omega)]
    exact fill_pieces_eq_one hp rfl
  · intro ch r c hch h
    rw [encode_board_eval, if_neg (by omega), if_neg (by omega)]
    exact fill_pieces_eq_zero h
  · intro r c
    rw [encode_board_eval, if_neg (by norm_num), if_pos rfl]
    cases hb : b.turn
    · rw [if_neg (show ¬(false = true) by simp),
        if_neg (show ¬(false = true) by simp)]
      exact fill_pieces_high (by norm_num)
    · rw [if_pos (show (true = true) from rfl),
        if_pos (show (true = true) from rfl)]
  · intro r c
    rw [encode_board_eval, if_pos rfl]

/-- Witness for C4 at the standard starting position: the White pawn on
e2 (file 4, rank 1) lands in channel 0 at row 6, column 4; the empty-cell,
side-to-move and castling planes are checked at concrete cells. -/
theorem C4_witness :
    start_position.piece_at (square_fr (4 : Fin 8) (1 : Fin 8))
        = some ⟨.pawn, true⟩
    ∧ encode_board start_position (0 : Fin 14) (6 : Fin 8) (4 : Fin 8) = 1
    ∧ encode_board start_position (0 : Fin 14) (4 : Fin 8) (4 : Fin 8) = 0
    ∧ encode_board start_position (12 : Fin 14) (0 : Fin 8) (0 : Fin 8) = 1
    ∧ encode_board start_position (13 : Fin 14) (0 : Fin 8) (0 : Fin 8)
        = (castling_count start_position : ℚ) / 4 := by
  refine ⟨by decide, ?_, ?_, ?_, ?_⟩
  · exact (C4_encode_board_correct start_position).1 (4 : Fin 8) (1 : Fin 8)
      ⟨.pawn, true⟩ (by decide)
  · refine (C4_encode_board_correct start_position).2.1 (0 : Fin 14) (4 : Fin 8)
      (4 : Fin 8) (by decide) ?_
    intro p hp
    have h0 : start_position.piece_at (square_at (4 : Fin 8) (4 : Fin 8)) = none := by
      decide
    rw [h0] at hp
    exact absurd hp (by simp)
  · exact (C4_encode_board_correct start_position).2.2.1 (0 : Fin 8) (0 : Fin 8)
  · exact (C4_encode_board_correct start_position).2.2.2 (0 : Fin 8) (0 : Fin 8)

theorem replay_length (push : Position → Move → Position) :
    ∀ (b : Position) (ms : List Move) (v : ℚ),
      (replay push b ms v).length = ms.length := by
  intro b ms v
  induction ms generalizing b with
  | nil => rfl
  | cons m ms ih => simp [replay, ih]

theorem sum_of_flatMap {α : Type} (l : List α) (f : α → List Nat) :
    (l.flatMap f).sum = (l.map fun a => (f a).sum).sum := by
  induction l with
  | nil => rfl
  | cons a l ih => simp [List.flatMap_cons, ih]

/-- Reading a game below the end of the archive succeeds. -/
theorem read_game_of_lt {ar : Archive} {pos : Nat} (h : pos < ar.length) :
    read_game ar pos = some (ar.getD pos ⟨none, []⟩) := by
  show ar[pos]? = _
  rw [List.getElem?_eq_getElem h, List.getD_eq_getElem _ _ h]

/-- Reading at or past the end of the archive yields `None`. -/
theorem read_game_of_le {ar : Archive} {pos : Nat} (h : ar.length ≤ pos) :
    read_game ar pos = none :=
  List.getElem?_eq_none h

/-- The indexing loop, characterised: starting with `fuel` games left and
the stream at boundary `pos`, every read succeeds, and the j-th entry
stores offset `pos + j + 1` (the boundary AFTER game `pos + j`) together
with game `pos + j`'s move count and outcome. -/
theorem scan_archive_eq (ar : Archive) :
    ∀ (fuel pos : Nat), pos + fuel ≤ ar.length →
      scan_archive ar fuel pos = (List.range fuel).map fun j =>
        (pos + j + 1, (ar.getD (pos + j) ⟨none, []⟩).mainline.length,
          result_value (ar.getD (pos + j) ⟨none, []⟩)) := by
  intro fuel
  induction fuel with
  | zero => intro pos _; rfl
  | succ n ih =>
      intro pos h
      have hread := @read_game_of_lt ar pos (by omega)
      simp only [scan_archive, hread]
      rw [List.range_succ_eq_map, List.map_cons, ih (pos + 1) (by omega),
        List.map_map]
      have hh : ∀ a : Nat, pos + 1 + a = pos + (a + 1) := fun a => by omega
      simp [Function.comp, hh]

/-- Lemma characterising `index_archive`: one entry per game k of the archive,
holding the offset k+1 and game k's move count and outcome. -/
theorem index_archive_eq (ar : Archive) :
    index_archive ar = (List.range ar.length).map fun k =>
      (k + 1, (ar.getD k ⟨none, []⟩).mainline.length,
        result_value (ar.getD k ⟨none, []⟩)) := by
  have h := scan_archive_eq ar ar.length 0 (by omega)
  simpa using h

/-- Shift inequality: summing `f` over positions 1..n-1 is bounded by
summing it over 0..n-1. -/
theorem sum_shift_le (f : Nat → Nat) (n : Nat) :
    ((List.range n).map fun k => if k + 1 < n then f (k + 1) else 0).sum
      ≤ ((List.range n).map f).sum := by
  cases n with
  | zero => simp
  | succ m =>
      have h1 : ((List.range m).map fun k => if k + 1 < m + 1 then f (k + 1) else 0)
          = (List.range m).map fun k => f (k + 1) := by
        apply List.map_congr_left
        intro a ha
        rw [if_pos (by have := List.mem_range.mp ha; omega)]
      calc ((List.range (m + 1)).map fun k => if k + 1 < m + 1 then f (k + 1) else 0).sum
          = ((List.range m).map fun k => f (k + 1)).sum := by
            rw [List.range_succ, List.map_append, List.sum_append, h1]
            simp
        _ ≤ f 0 + ((List.range m).map fun k => f (k + 1)).sum := Nat.le_add_left _ _
        _ = ((List.range (m + 1)).map f).sum := by
            rw [List.range_succ_eq_map, List.map_cons, List.sum_cons, List.map_map]
            rfl

/-- Per-archive bound: the samples produced by the entries of one archive
are at most that archive's recorded move counts — each entry k replays
game k+1 (its stored offset points past game k), and the last entry
replays nothing. -/
theorem archive_iter_le (push : Position → Move → Position)
    (files : List Archive) (i : Nat) :
    (((index_archive (files.getD i [])).map fun t =>
        (⟨i, t.1, t.2.1, t.2.2⟩ : Entry)).flatMap (iter_entry push files)).length
      ≤ (((index_archive (files.getD i [])).map fun t =>
        (⟨i, t.1, t.2.1, t.2.2⟩ : Entry)).map Entry.move_count).sum := by
  rw [List.length_flatMap, List.map_map, List.map_map,
    index_archive_eq, List.map_map, List.map_map]
  refine le_trans (le_of_eq ?_)
    (sum_shift_le
      (fun j => ((files.getD i []).getD j ⟨none, []⟩).mainline.length)
      (files.getD i []).length)
  apply congrArg List.sum
  apply List.map_congr_left
  intro k hk
  simp only [Function.comp]
  by_cases hk1 : k + 1 < (files.getD i []).length
  · have hread := @read_game_of_lt (files.getD i []) (k + 1) hk1
    simp only [iter_entry, hread, replay_length, if_pos hk1]
  · have hread := @read_game_of_le (files.getD i []) (k + 1) (by omega)
    simp only [iter_entry, hread, if_neg hk1]
    rfl

/-- C1 (code bug): `_create_index` records `pgn.tell()` only AFTER
`chess.pgn.read_game` has parsed the game, so the entry for game k stores
the boundary after game k, i.e. the offset of game k+1.  On an archive
with a 1-move game (Result 1-0) followed by a 2-move game (Result 0-1),
the first entry carries game 1's metadata (move_count 1, value +1) but
seeking to its recorded offset and parsing one game yields game 2, whose
main line has 2 moves, and the second entry's offset parses nothing:
per-entry replay does not reconstruct the game whose move_count and
outcome were stored. -/
theorem C1_offset_recorded_after_parsing :
    create_index two_game_files = [⟨0, 1, 1, 1⟩, ⟨0, 2, 2, -1⟩]
    ∧ read_game (two_game_files.getD 0 []) 1 = some game_two_moves
    ∧ game_two_moves ≠ game_one_move
    ∧ game_two_moves.mainline.length ≠ 1
    ∧ read_game (two_game_files.getD 0 []) 2 = none := by
  refine ⟨by decide, by decide, by decide, by decide, by decide⟩

/-- C2 counterexample: on the archive containing exactly the one game
"1. e4 e5 2. Nf3 *" with Result "1-0", a full traversal of the dataset
yields 0 samples, not 4. -/
theorem C2_counterexample :
    (dataset_iter apply_move one_game_files).length ≠ 4 := by
  have h : (dataset_iter apply_move one_game_files).length = 0 := rfl
  rw [h]
  decide

/-- C2 amended: on that archive the traversal yields exactly 0 samples:
the single index entry stores move_count 3 and outcome +1.0, but its
recorded offset (1, taken after the game was parsed) is the end of the
file, so the per-entry read returns nothing and the entry is skipped. -/
theorem C2_amended_zero_samples :
    dataset_iter apply_move one_game_files = []
    ∧ create_index one_game_files = [⟨0, 1, 3, 1⟩]
    ∧ read_game (one_game_files.getD 0 []) 1 = none :=
  ⟨rfl, by decide, by decide⟩

/-- C3 (code bug): on the two-game archive, `__len__` reports 3 (the sum
of the stored move counts) but a full traversal yields only 2 samples:
entry 1 replays game 2 (2 samples) and entry 2 replays nothing, so the
total does not equal the sum of move_count over the Game Index Entries,
and no game contributes exactly its own move_count. -/
theorem C3_total_samples_mismatch :
    total_positions two_game_files = 3
    ∧ (dataset_iter apply_move two_game_files).length = 2
    ∧ (dataset_iter apply_move two_game_files).length
        ≠ total_positions two_game_files := by
  have h : (dataset_iter apply_move two_game_files).length = 2 := rfl
  exact ⟨by decide, h, by rw [h]; decide⟩

/-- C10: an entry whose recorded offset does not parse to a game is
skipped silently — it contributes zero samples (the embedded `__iter__`
is total: `continue`, no exception) and the traversal is the
concatenation over the remaining entries; consequently the reported
length `total_positions` is an upper bound on the samples actually
yielded, and (third conjunct) on a concrete input the bound is strict. -/
theorem C10_failed_parse_skipped :
    (∀ (push : Position → Move → Position) (files : List Archive) (e : Entry),
        read_game (files.getD e.path []) e.game_start = none →
        iter_entry push files e = [])
    ∧ (∀ (push : Position → Move → Position) (files : List Archive),
        (dataset_iter push files).length ≤ total_positions files)
    ∧ (dataset_iter apply_move one_game_files).length
        < total_positions one_game_files := by
  refine ⟨?_, ?_, ?_⟩
  · intro push files e h
    unfold iter_entry
    rw [h]
  · intro push files
    show (List.flatMap _ _).length ≤ ((List.flatMap _ _).map _).sum
    rw [show create_index files = (List.range files.length).flatMap fun i =>
        (index_archive (files.getD i [])).map fun t => ⟨i, t.1, t.2.1, t.2.2⟩
      from rfl]
    rw [List.flatMap_assoc, List.length_flatMap, List.map_flatMap,
      sum_of_flatMap]
    exact List.sum_le_sum fun i _ => archive_iter_le push files i
  · have h : (dataset_iter apply_move one_game_files).length = 0 := rfl
    rw [h]
    decide

/-- Witness for C10: the single entry of the one-game archive has its
recorded offset past the end, parses to nothing, and is skipped. -/
theorem C10_witness :
    read_game (one_game_files.getD (0:Nat) []) 1 = none
    ∧ iter_entry apply_move one_game_files ⟨0, 1, 3, 1⟩ = []
    ∧ (dataset_iter apply_move one_game_files).length
        ≤ total_positions one_game_files :=
  ⟨by decide,
   C10_failed_parse_skipped.1 apply_move one_game_files ⟨0, 1, 3, 1⟩ (by decide),
   (C10_failed_parse_skipped.2.1 apply_move one_game_files)⟩

theorem per_worker_pos {M N : Nat} (hN : 1 ≤ N) (hM : 1 ≤ M) :
    1 ≤ per_worker M N := by
  unfold per_worker
  rw [Nat.le_div_iff_mul_le (by omega)]
  omega

theorem mul_per_worker_ge {M N : Nat} (hN : 1 ≤ N) : M ≤ N * per_worker M N := by
  unfold per_worker
  have h := Nat.div_add_mod (M + N - 1) N
  have h2 : (M + N - 1) % N < N := Nat.mod_lt _ (by omega)
  generalize hr : (M + N - 1) % N = r at h h2
  generalize hA : N * ((M + N - 1) / N) = A at h ⊢
  omega

theorem range_flatMap_take {α : Type} (l : List α) (p : Nat) :
    ∀ n : Nat,
      (List.range n).flatMap (fun k => (l.drop (k * p)).take p) = l.take (n * p) := by
  intro n
  induction n with
  | zero => simp
  | succ m ih =>
      rw [List.range_succ, List.flatMap_append, ih,
        show (m + 1) * p = m * p + p by ring, List.take_add]
      congr 1
      simp [List.flatMap_cons]

theorem flatMap_worker_slice (idx : List Entry) (N : Nat) (hN : 1 ≤ N) :
    (List.range N).flatMap (worker_slice idx N) = idx := by
  show (List.range N).flatMap
    (fun k => (idx.drop (k * per_worker idx.length N)).take
      (per_worker idx.length N)) = idx
  rw [range_flatMap_take]
  exact List.take_of_length_le (mul_per_worker_ge hN)

/-- C7: for every worker count N ≥ 1, worker k's slice is the contiguous
block `indices[k*p : k*p+p]` with `p = ceil(M/N)`; the slices concatenated
in worker order rebuild the full index in its original order, no slice
holds more than p entries, and every index position belongs to exactly
one worker's block (the slices are pairwise disjoint and cover the
index).  The partition is at Game Index Entry granularity, so a game's
positions — all produced from one entry — are never split across two
workers. -/
theorem C7_worker_partition (idx : List Entry) (N : Nat) (hN : 1 ≤ N) :
    ((List.range N).flatMap (worker_slice idx N) = idx)
    ∧ (∀ k, worker_slice idx N k =
        (idx.drop (k * per_worker idx.length N)).take (per_worker idx.length N))
    ∧ (∀ k, (worker_slice idx N k).length ≤ per_worker idx.length N)
    ∧ (∀ i, i < idx.length →
        ∃! k, k < N ∧ k * per_worker idx.length N ≤ i
          ∧ i < k * per_worker idx.length N + per_worker idx.length N) := by
  refine ⟨flatMap_worker_slice idx N hN, fun k => rfl,
    fun k => List.length_take_le _ _, ?_⟩
  intro i hi
  have hp1 : 1 ≤ per_worker idx.length N := per_worker_pos hN (by omega)
  have hNp : idx.length ≤ N * per_worker idx.length N := mul_per_worker_ge hN
  refine ⟨i / per_worker idx.length N, ⟨?_, ?_, ?_⟩, ?_⟩
  · exact (Nat.div_lt_iff_lt_mul (by omega)).mpr (by omega)
  · exact Nat.div_mul_le_self i _
  · calc i = per_worker idx.length N * (i / per_worker idx.length N)
          + i % per_worker idx.length N := (Nat.div_add_mod i _).symm
      _ < per_worker idx.length N * (i / per_worker idx.length N)
          + per_worker idx.length N :=
        Nat.add_lt_add_left (Nat.mod_lt i (by omega)) _
      _ = i / per_worker idx.length N * per_worker idx.length N
          + per_worker idx.length N := by rw [Nat.mul_comm]
  · rintro k ⟨-, h1, h2⟩
    exact (Nat.div_eq_of_lt_le h1 (by rw [Nat.succ_mul]; omega)).symm

/-- Witness for C7 on five entries split over two workers
(per_worker = 3): slices of sizes 3 and 2. -/
theorem C7_witness :
    (List.range 2).flatMap (worker_slice five_entries 2) = five_entries
    ∧ (worker_slice five_entries 2 0).length ≤ per_worker five_entries.length 2
    ∧ worker_slice five_entries 2 0 = [⟨0, 1, 1, 0⟩, ⟨0, 2, 2, 0⟩, ⟨0, 3, 3, 0⟩]
    ∧ worker_slice five_entries 2 1 = [⟨0, 4, 4, 0⟩, ⟨0, 5, 5, 0⟩] :=
  ⟨(C7_worker_partition five_entries 2 (by decide)).1,
   (C7_worker_partition five_entries 2 (by decide)).2.2.1 0,
   by decide, by decide⟩

/-- Evaluation of `evaluate_position`, with the sorted list exposed through `head?`. -/
theorem evaluate_position_eq (policy : Int → ℚ) (legal : List Move) :
    evaluate_position policy legal =
      (((legal.map fun move =>
          (move, policy (move.from_square * 64 + move.to_square))).mergeSort
            (fun a b => decide (b.2 ≤ a.2))).head?.map Prod.fst,
        (legal.map fun move =>
          (move, policy (move.from_square * 64 + move.to_square))).mergeSort
            (fun a b => decide (b.2 ≤ a.2))) := by
  unfold evaluate_position
  cases h : (legal.map fun move =>
      (move, policy (move.from_square * 64 + move.to_square))).mergeSort
        (fun a b => decide (b.2 ≤ a.2)) <;>
    simp [h]

/-- C9: the returned best move is `None` exactly on an empty legal-move
list, and any returned best move is a legal move whose raw probability is
greatest among all legal moves. -/
theorem C9_best_move_legal_max (policy : Int → ℚ) (legal : List Move) :
    ((evaluate_position policy legal).1 = none ↔ legal = [])
    ∧ (∀ bm, (evaluate_position policy legal).1 = some bm →
        bm ∈ legal ∧ ∀ m ∈ legal,
          policy (m.from_square * 64 + m.to_square)
            ≤ policy (bm.from_square * 64 + bm.to_square)) := by
  have hperm := List.mergeSort_perm
    (legal.map fun move => (move, policy (move.from_square * 64 + move.to_square)))
    (fun a b => decide (b.2 ≤ a.2))
  have hpair := @List.sorted_mergeSort (Move × ℚ)
    (fun a b => decide (b.2 ≤ a.2))
    (fun a b c hab hbc => by
      simp only [decide_eq_true_eq] at *
      exact le_trans hbc hab)
    (fun a b => by
      simp only [Bool.or_eq_true, decide_eq_true_eq]
      exact le_total b.2 a.2)
    (legal.map fun move => (move, policy (move.from_square * 64 + move.to_square)))
  rw [evaluate_position_eq]
  constructor
  · constructor
    · intro h
      rw [Option.map_eq_none', List.head?_eq_none_iff] at h
      rw [h] at hperm
      exact List.map_eq_nil_iff.mp (List.perm_nil.mp hperm.symm)
    · intro h
      subst h
      simp
  · intro bm hbm
    cases hsort : (legal.map fun move =>
        (move, policy (move.from_square * 64 + move.to_square))).mergeSort
          (fun a b => decide (b.2 ≤ a.2)) with
    | nil => rw [hsort] at hbm; exact absurd hbm (by simp)
    | cons x rest =>
        rw [hsort] at hbm hperm hpair
        simp only [List.head?_cons, Option.map_some'] at hbm
        have hbm2 : x.1 = bm := Option.some.inj hbm
        have hx : x ∈ legal.map fun move =>
            (move, policy (move.from_square * 64 + move.to_square)) :=
          hperm.mem_iff.mp (List.mem_cons_self x rest)
        obtain ⟨mx, hmx, hmx2⟩ := List.mem_map.mp hx
        constructor
        · rw [← hbm2, ← hmx2]
          exact hmx
        · intro m hm
          have hmem : (m, policy (m.from_square * 64 + m.to_square)) ∈ x :: rest :=
            hperm.mem_iff.mpr (List.mem_map.mpr ⟨m, hm, rfl⟩)
          have hx2 : policy (bm.from_square * 64 + bm.to_square) = x.2 := by
            rw [← hbm2, ← hmx2]
          rw [hx2]
          rcases List.mem_cons.mp hmem with heq | hrest
          · rw [show policy (m.from_square * 64 + m.to_square)
              = (m, policy (m.from_square * 64 + m.to_square)).2 from rfl, heq]
          · have := (List.pairwise_cons.mp hpair).1 _ hrest
            simpa using this

/-- Witness for C9 on a one-move legal list: the best move is that move,
it is legal, and its probability is maximal. -/
theorem C9_witness :
    (evaluate_position demo_policy demo_legal).1 = some ⟨12, 28, none⟩
    ∧ (⟨12, 28, none⟩ : Move) ∈ demo_legal
    ∧ ∀ m ∈ demo_legal,
        demo_policy (m.from_square * 64 + m.to_square)
          ≤ demo_policy ((12:ℤ) * 64 + 28) := by
  have h : (evaluate_position demo_policy demo_legal).1 = some ⟨12, 28, none⟩ := by
    rw [evaluate_position_eq]
    simp [demo_legal, List.mergeSort]
  refine ⟨h, ?_, ?_⟩
  · exact ((C9_best_move_legal_max demo_policy demo_legal).2 ⟨12, 28, none⟩ h).1
  · exact ((C9_best_move_legal_max demo_policy demo_legal).2 ⟨12, 28, none⟩ h).2

end ChessAI
